import Mathlib

/-!
Verification of the scan-conversion library of `src/lab3` (algorithms.py and
benchmark.py): the three line rasterizers, the midpoint circle rasterizer and
the benchmark workload generation.

Machine integers of the source are arbitrary-precision Python ints, embedded
as `ℤ`.  The floating-point values appearing in the Step and DDA rasterizers
are embedded as exact rationals `ℚ`; Python's `round` builtin (round half to
even) is embedded as `pyRound`.  On the concrete inputs evaluated below all
intermediate float values are dyadic rationals of tiny magnitude, where IEEE
double arithmetic is exact, so the rational model agrees with the float run.
-/

/-- Point = tuple[int, int] from algorithms.py. -/
abbrev Point : Type := ℤ × ℤ

/-- Python's builtin `round` on an exact real value: nearest integer, ties to
even (banker's rounding), as used by `int(round(...))` in the source. -/
def pyRound (q : ℚ) : ℤ :=
  let f : ℤ := ⌊q⌋
  let r : ℚ := q - (f : ℚ)
  if r < 1/2 then f
  else if 1/2 < r then f + 1
  else if f % 2 = 0 then f else f + 1

/-- One conditional append `if not points or point != points[-1]:
points.append(point)` from step_line_points / dda_line_points. -/
def dedupAppend (points : List Point) (point : Point) : List Point :=
  if points = [] ∨ points.getLast? ≠ some point then points ++ [point] else points

/-- step_line_points from algorithms.py.  The `while True` loop of the source
walks the dominant coordinate from its start value to its end value inclusive,
one `step` at a time, and breaks exactly at the end value; since `step` is the
sign of the dominant delta the loop body runs exactly `|delta| + 1` times, at
dominant coordinate `start + step * i` for `i = 0, ..., |delta|`, which is how
it is rendered here. -/
def stepLinePoints (x1 y1 x2 y2 : ℤ) : List Point :=
  let dx := x2 - x1
  let dy := y2 - y1
  if dx = 0 ∧ dy = 0 then [(x1, y1)]
  else if |dy| ≤ |dx| then
    let slope : ℚ := if dx ≠ 0 then (dy : ℚ) / (dx : ℚ) else 0
    let step : ℤ := if 0 ≤ dx then 1 else -1
    (List.range (|dx|.toNat + 1)).foldl
      (fun points (i : ℕ) =>
        let x := x1 + step * (i : ℤ)
        let rawY : ℚ := (y1 : ℚ) + slope * ((x : ℚ) - (x1 : ℚ))
        dedupAppend points (x, pyRound rawY))
      []
  else
    let invSlope : ℚ := if dy ≠ 0 then (dx : ℚ) / (dy : ℚ) else 0
    let step : ℤ := if 0 ≤ dy then 1 else -1
    (List.range (|dy|.toNat + 1)).foldl
      (fun points (i : ℕ) =>
        let y := y1 + step * (i : ℤ)
        let rawX : ℚ := (x1 : ℚ) + invSlope * ((y : ℚ) - (y1 : ℚ))
        dedupAppend points (pyRound rawX, y))
      []

/-- dda_line_points from algorithms.py; the running float position is carried
exactly as a pair of rationals. -/
def ddaLinePoints (x1 y1 x2 y2 : ℤ) : List Point :=
  let dx := x2 - x1
  let dy := y2 - y1
  let steps := max |dx| |dy|
  if steps = 0 then [(x1, y1)]
  else
    let xInc : ℚ := (dx : ℚ) / (steps : ℚ)
    let yInc : ℚ := (dy : ℚ) / (steps : ℚ)
    ((List.range (steps.toNat + 1)).foldl
      (fun (st : ℚ × ℚ × List Point) _ =>
        let point := (pyRound st.1, pyRound st.2.1)
        (st.1 + xInc, st.2.1 + yInc, dedupAppend st.2.2 point))
      ((x1 : ℚ), (y1 : ℚ), [])).2.2

/-- One iteration of the Bresenham line loop, over a renamed state
`(u, v, err, points)` where `u` is the coordinate driven unconditionally and
`v` the one advanced when the error term is non-negative; `mk u v` rebuilds
the emitted point in source coordinate order.  With `mk = fun u v => (u, v)`,
`u := x`, `v := y`, `du := dx`, `dv := dy` this is literally the body of the
`dx >= dy` loop of bresenham_line_points; with `mk = fun u v => (v, u)` and
the roles of x and y swapped it is the body of the `else` loop. -/
def bresStep (su sv du dv : ℤ) (mk : ℤ → ℤ → Point)
    (st : ℤ × ℤ × ℤ × List Point) : ℤ × ℤ × ℤ × List Point :=
  let v' := if 0 ≤ st.2.2.1 then st.2.1 + sv else st.2.1
  let err' := (if 0 ≤ st.2.2.1 then st.2.2.1 - 2 * du else st.2.2.1) + 2 * dv
  let u' := st.1 + su
  let p := mk u' v'
  (u', v', err',
    if st.2.2.2.getLast? ≠ some p then st.2.2.2 ++ [p] else st.2.2.2)

/-- n-fold application of bresStep: a `for _ in range(n)` loop whose body is
one bresStep. -/
def bresLoop (su sv du dv : ℤ) (mk : ℤ → ℤ → Point) :
    ℕ → ℤ × ℤ × ℤ × List Point → ℤ × ℤ × ℤ × List Point
  | 0, st => st
  | n + 1, st => bresStep su sv du dv mk (bresLoop su sv du dv mk n st)

/-- bresenham_line_points from algorithms.py.  The `for _ in range(dx)` loop
runs its body dx times, i.e. is `bresLoop` at fuel dx; likewise the dy loop. -/
def bresenhamLinePoints (x1 y1 x2 y2 : ℤ) : List Point :=
  let dx := |x2 - x1|
  let dy := |y2 - y1|
  let sx : ℤ := if x1 ≤ x2 then 1 else -1
  let sy : ℤ := if y1 ≤ y2 then 1 else -1
  if dy ≤ dx then
    (bresLoop sx sy dx dy (fun u v => (u, v)) dx.toNat
      (x1, y1, 2 * dy - dx, [(x1, y1)])).2.2.2
  else
    (bresLoop sy sx dy dx (fun u v => (v, u)) dy.toNat
      (y1, x1, 2 * dx - dy, [(x1, y1)])).2.2.2

/-- _circle_symmetry_points from algorithms.py. -/
def circle_symmetry_points (xc yc x y : ℤ) : List Point :=
  [(xc + x, yc + y), (xc - x, yc + y), (xc + x, yc - y), (xc - x, yc - y),
   (xc + y, yc + x), (xc - y, yc + x), (xc + y, yc - x), (xc - y, yc - x)]

/-- Inner `for px, py in _circle_symmetry_points(...)` loop of
bresenham_circle_points: appends each candidate not seen before.  The Python
`set` is carried as the list of its elements (only membership is consulted).
Returns the pair (seen, points) after the loop. -/
def circleInner : List Point → List Point → List Point → List Point × List Point
  | [], seen, points => (seen, points)
  | p :: rest, seen, points =>
      if p ∈ seen then circleInner rest seen points
      else circleInner rest (p :: seen) (points ++ [p])

/-- Outer `while y >= x` loop of bresenham_circle_points.  Each pass the
source increments x and either keeps or decrements y, so `y + 1 - x` strictly
decreases while the guard holds. -/
def circleLoop (xc yc : ℤ) (x y d : ℤ) (seen points : List Point) :
    List Point :=
  if x ≤ y then
    let sp := circleInner (circle_symmetry_points xc yc x y) seen points
    if 0 < d then
      circleLoop xc yc (x + 1) (y - 1) (d + 4 * ((x + 1) - (y - 1)) + 10)
        sp.1 sp.2
    else
      circleLoop xc yc (x + 1) y (d + 4 * (x + 1) + 6) sp.1 sp.2
  else points
termination_by (y + 1 - x).toNat
decreasing_by
  all_goals simp_wf
  all_goals omega

/-- bresenham_circle_points from algorithms.py; `raise ValueError` becomes
an `Except.error` carrying the message. -/
def bresenhamCirclePoints (xc yc radius : ℤ) : Except String (List Point) :=
  if radius < 0 then .error "Radius must be non-negative."
  else .ok (circleLoop xc yc 0 radius (3 - 2 * radius) [] [])

/-- Modelled from the spec: the `random` module used by run_benchmarks in
benchmark.py is Python standard library, not part of src/.  `draw k lo hi`
stands for the value of the k-th `rng.randint(lo, hi)` call made by
`rng = random.Random(seed)`; per the stdlib contract that value is a
deterministic function of the seed and the call history, and lies in
`[lo, hi]`.  run_benchmarks issues four draws per line tuple, in argument
order, then three per circle tuple. -/
def lineDataset (draw : ℕ → ℤ → ℤ → ℤ) (lineTests : ℕ) :
    List (ℤ × ℤ × ℤ × ℤ) :=
  (List.range lineTests).map (fun i =>
    (draw (4 * i) (-60) 60, draw (4 * i + 1) (-60) 60,
     draw (4 * i + 2) (-60) 60, draw (4 * i + 3) (-60) 60))

/-- Modelled from the spec: the circle dataset of run_benchmarks, drawn from
the same generator after the `4 * lineTests` line draws. -/
def circleDataset (draw : ℕ → ℤ → ℤ → ℤ) (lineTests circleTests : ℕ) :
    List (ℤ × ℤ × ℤ) :=
  (List.range circleTests).map (fun i =>
    (draw (4 * lineTests + 3 * i) (-30) 30,
     draw (4 * lineTests + 3 * i + 1) (-30) 30,
     draw (4 * lineTests + 3 * i + 2) 1 30))

/-- The full generated workload of one run_benchmarks call. -/
def runBenchmarksWorkload (draw : ℕ → ℤ → ℤ → ℤ)
    (lineTests circleTests : ℕ) :
    List (ℤ × ℤ × ℤ × ℤ) × List (ℤ × ℤ × ℤ) :=
  (lineDataset draw lineTests, circleDataset draw lineTests circleTests)

/-- Appending an element different from the last preserves the
no-adjacent-duplicates chain. -/
lemma chain'_ne_concat {l : List Point} {p : Point}
    (h : List.Chain' (fun a b : Point => a ≠ b) l)
    (hne : l.getLast? ≠ some p) :
    List.Chain' (fun a b : Point => a ≠ b) (l ++ [p]) := by
  rw [List.chain'_append]
  refine ⟨h, List.chain'_singleton p, ?_⟩
  intro a ha b hb
  rw [Option.mem_def] at ha hb
  simp only [List.head?_cons, Option.some.injEq] at hb
  subst hb
  exact fun hab => hne (by rw [← hab]; exact ha)

/-- dedupAppend preserves the no-adjacent-duplicates chain. -/
lemma chain'_ne_dedupAppend (l : List Point) (p : Point)
    (h : List.Chain' (fun a b : Point => a ≠ b) l) :
    List.Chain' (fun a b : Point => a ≠ b) (dedupAppend l p) := by
  unfold dedupAppend
  split
  · rename_i hc
    rcases hc with hnil | hne
    · subst hnil; simp
    · exact chain'_ne_concat h hne
  · exact h

/-- A predicate preserved by every fold step holds of the fold result. -/
lemma foldl_preserve {σ α : Type*} {Q : σ → Prop} {f : σ → α → σ}
    (h : ∀ s a, Q s → Q (f s a)) :
    ∀ (l : List α) (s : σ), Q s → Q (l.foldl f s)
  | [], _, hs => hs
  | a :: l, s, hs => foldl_preserve h l (f s a) (h s a hs)

/-- C7: each of the three line rasterizers maps a degenerate segment
(x2 = x1, y2 = y1) to exactly the one-element sequence [(x1, y1)]; in
particular each returns [(5, 5)] on input (5, 5, 5, 5). -/
theorem degenerate_line_single_point (x1 y1 : ℤ) :
    stepLinePoints x1 y1 x1 y1 = [(x1, y1)] ∧
    ddaLinePoints x1 y1 x1 y1 = [(x1, y1)] ∧
    bresenhamLinePoints x1 y1 x1 y1 = [(x1, y1)] := by
  refine ⟨?_, ?_, ?_⟩
  · simp [stepLinePoints]
  · simp [ddaLinePoints]
  · simp [bresenhamLinePoints, bresLoop]

/-- C3: no two consecutive points of any of the three line rasterizers'
results are equal. -/
theorem line_no_adjacent_duplicates (x1 y1 x2 y2 : ℤ) :
    List.Chain' (fun a b : Point => a ≠ b) (stepLinePoints x1 y1 x2 y2) ∧
    List.Chain' (fun a b : Point => a ≠ b) (ddaLinePoints x1 y1 x2 y2) ∧
    List.Chain' (fun a b : Point => a ≠ b) (bresenhamLinePoints x1 y1 x2 y2) := by
  have hbres : ∀ (su sv du dv : ℤ) (mk : ℤ → ℤ → Point)
      (st : ℤ × ℤ × ℤ × List Point),
      List.Chain' (fun a b : Point => a ≠ b) st.2.2.2 →
      List.Chain' (fun a b : Point => a ≠ b)
        (bresStep su sv du dv mk st).2.2.2 := by
    intro su sv du dv mk st h
    unfold bresStep
    dsimp only
    split <;> split
    · exact chain'_ne_concat h (by assumption)
    · exact h
    · exact chain'_ne_concat h (by assumption)
    · exact h
  have hloop : ∀ (su sv du dv : ℤ) (mk : ℤ → ℤ → Point) (n : ℕ)
      (st : ℤ × ℤ × ℤ × List Point),
      List.Chain' (fun a b : Point => a ≠ b) st.2.2.2 →
      List.Chain' (fun a b : Point => a ≠ b)
        (bresLoop su sv du dv mk n st).2.2.2 := by
    intro su sv du dv mk n
    induction n with
    | zero => exact fun st h => h
    | succ n ih => exact fun st h => hbres _ _ _ _ _ _ (ih st h)
  refine ⟨?_, ?_, ?_⟩
  · unfold stepLinePoints
    dsimp only
    split
    · simp
    · split
      · exact foldl_preserve
          (fun points i h => chain'_ne_dedupAppend points _ h) _ [] (by simp)
      · exact foldl_preserve
          (fun points i h => chain'_ne_dedupAppend points _ h) _ [] (by simp)
  · unfold ddaLinePoints
    dsimp only
    split
    · simp
    · exact foldl_preserve
        (Q := fun st : ℚ × ℚ × List Point =>
          List.Chain' (fun a b : Point => a ≠ b) st.2.2)
        (fun st i h => chain'_ne_dedupAppend st.2.2 _ h) _ _ (by simp)
  · unfold bresenhamLinePoints
    dsimp only
    split
    · exact hloop _ _ _ _ _ _ _ (by simp)
    · exact hloop _ _ _ _ _ _ _ (by simp)

/-- Arithmetic invariant of the Bresenham loop: after `i ≤ du` iterations the
driven coordinate has advanced `i` steps, the dependent one `k` steps for some
`0 ≤ k ≤ dv`, the error term has the stated closed form and (once `1 ≤ du`)
stays in `[2dv - 2du, 2dv - 1]`, and every recorded point arises from a
position of that shape. -/
lemma bresLoop_inv (su sv du dv u1 v1 : ℤ) (mk : ℤ → ℤ → Point)
    (hdv : 0 ≤ dv) (hdudv : dv ≤ du) :
    ∀ i : ℕ, (i : ℤ) ≤ du →
      ∃ (k : ℤ) (pts : List Point),
        bresLoop su sv du dv mk i (u1, v1, 2 * dv - du, [mk u1 v1]) =
          (u1 + i * su, v1 + k * sv, 2 * dv * (i + 1) - du - 2 * du * k, pts) ∧
        0 ≤ k ∧ k ≤ dv ∧
        (1 ≤ du → 2 * dv - 2 * du ≤ 2 * dv * (i + 1) - du - 2 * du * k ∧
          2 * dv * (i + 1) - du - 2 * du * k ≤ 2 * dv - 1) ∧
        (∀ p ∈ pts, ∃ j m : ℤ, 0 ≤ j ∧ j ≤ (i : ℤ) ∧ 0 ≤ m ∧ m ≤ dv ∧
          p = mk (u1 + j * su) (v1 + m * sv)) := by
  intro i
  induction i with
  | zero =>
    intro _
    refine ⟨0, [mk u1 v1], ?_, le_refl 0, hdv, ?_, ?_⟩
    · simp [bresLoop]
    · intro hdu1
      push_cast
      constructor <;> nlinarith []
    · intro p hp
      rw [List.mem_singleton] at hp
      exact ⟨0, 0, le_refl 0, le_refl 0, le_refl 0, hdv, by simp [hp]⟩
  | succ i ih =>
    intro hi1
    have hii : (i : ℤ) ≤ du := by push_cast at hi1 ⊢; omega
    have hi1' : (i : ℤ) + 1 ≤ du := by push_cast at hi1; omega
    have hdu1 : 1 ≤ du := by omega
    have hdu0 : 0 < du := by omega
    obtain ⟨k, pts, heq, hk0, hkdv, hbnd, hmem⟩ := ih hii
    have hbnd' := hbnd hdu1
    have hstep : bresLoop su sv du dv mk (i + 1)
        (u1, v1, 2 * dv - du, [mk u1 v1]) =
        bresStep su sv du dv mk
          (u1 + i * su, v1 + k * sv, 2 * dv * (i + 1) - du - 2 * du * k,
            pts) := by
      rw [bresLoop, heq]
    by_cases hE : 0 ≤ 2 * dv * ((i : ℤ) + 1) - du - 2 * du * k
    · -- the error term is non-negative: the dependent coordinate advances
      have h2 : 2 * dv * ((i : ℤ) + 1) ≤ 2 * dv * du :=
        mul_le_mul_of_nonneg_left hi1' (by linarith)
      have h3 : du * (2 * k) ≤ du * (2 * dv - 1) := by
        ring_nf
        ring_nf at hE h2
        linarith
      have h4 : 2 * k ≤ 2 * dv - 1 := le_of_mul_le_mul_left h3 hdu0
      have hkdv' : k + 1 ≤ dv := by omega
      refine ⟨k + 1,
        (if pts.getLast? ≠ some (mk (u1 + (i : ℤ) * su + su) (v1 + k * sv + sv))
          then pts ++ [mk (u1 + (i : ℤ) * su + su) (v1 + k * sv + sv)]
          else pts),
        ?_, by omega, hkdv', ?_, ?_⟩
      · rw [hstep]
        unfold bresStep
        dsimp only
        rw [if_pos hE, if_pos hE]
        simp only [Prod.mk.injEq]
        exact ⟨by push_cast; ring, by ring, by push_cast; ring, trivial⟩
      · intro _
        constructor
        · push_cast
          nlinarith [hE]
        · push_cast
          nlinarith [hbnd'.2]
      · intro q hq
        split at hq
        · rcases List.mem_append.mp hq with hq | hq
          · obtain ⟨j, m, h1, h2', h3', h4', h5⟩ := hmem q hq
            exact ⟨j, m, h1, by push_cast; omega, h3', h4', h5⟩
          · rw [List.mem_singleton] at hq
            refine ⟨(i : ℤ) + 1, k + 1, by positivity, by push_cast; omega,
              by omega, hkdv', ?_⟩
            rw [hq]
            exact congrArg₂ _ (by ring) (by ring)
        · obtain ⟨j, m, h1, h2', h3', h4', h5⟩ := hmem q hq
          exact ⟨j, m, h1, by push_cast; omega, h3', h4', h5⟩
    · -- the error term is negative: only the driven coordinate advances
      refine ⟨k,
        (if pts.getLast? ≠ some (mk (u1 + (i : ℤ) * su + su) (v1 + k * sv))
          then pts ++ [mk (u1 + (i : ℤ) * su + su) (v1 + k * sv)]
          else pts),
        ?_, hk0, hkdv, ?_, ?_⟩
      · rw [hstep]
        unfold bresStep
        dsimp only
        rw [if_neg hE, if_neg hE]
        simp only [Prod.mk.injEq]
        exact ⟨by push_cast; ring, by ring_nf, by push_cast; ring, trivial⟩
      · intro _
        constructor
        · push_cast
          linarith [hbnd'.1]
        · push_cast
          linarith [not_le.mp hE]
      · intro q hq
        split at hq
        · rcases List.mem_append.mp hq with hq | hq
          · obtain ⟨j, m, h1, h2', h3', h4', h5⟩ := hmem q hq
            exact ⟨j, m, h1, by push_cast; omega, h3', h4', h5⟩
          · rw [List.mem_singleton] at hq
            refine ⟨(i : ℤ) + 1, k, by positivity, by push_cast; omega,
              hk0, hkdv, ?_⟩
            rw [hq]
            exact congrArg₂ _ (by ring) rfl
        · obtain ⟨j, m, h1, h2', h3', h4', h5⟩ := hmem q hq
          exact ⟨j, m, h1, by push_cast; omega, h3', h4', h5⟩

/-- Running the Bresenham loop for exactly du iterations lands on the far
endpoint: the driven coordinate advanced du steps and the dependent one
exactly dv steps. -/
lemma bresLoop_final (su sv du dv u1 v1 : ℤ) (mk : ℤ → ℤ → Point)
    (hdv : 0 ≤ dv) (hdudv : dv ≤ du) :
    ∃ pts : List Point,
      bresLoop su sv du dv mk du.toNat (u1, v1, 2 * dv - du, [mk u1 v1]) =
        (u1 + du * su, v1 + dv * sv,
          2 * dv * (du + 1) - du - 2 * du * dv, pts) ∧
      (∀ p ∈ pts, ∃ j m : ℤ, 0 ≤ j ∧ j ≤ du ∧ 0 ≤ m ∧ m ≤ dv ∧
        p = mk (u1 + j * su) (v1 + m * sv)) := by
  have hdu : 0 ≤ du := le_trans hdv hdudv
  have hcast : ((du.toNat : ℤ)) = du := Int.toNat_of_nonneg hdu
  obtain ⟨k, pts, heq, hk0, hkdv, hbnd, hmem⟩ :=
    bresLoop_inv su sv du dv u1 v1 mk hdv hdudv du.toNat (by rw [hcast])
  rw [hcast] at heq hmem hbnd
  have hkdveq : k = dv := by
    rcases eq_or_lt_of_le hdu with h0 | h0
    · omega
    · have hdu1 : (1 : ℤ) ≤ du := h0
      obtain ⟨hlo, hhi⟩ := hbnd hdu1
      have hup : du * (2 * k) ≤ du * (2 * dv + 1) := by
        ring_nf
        ring_nf at hlo
        linarith
      have hdown : du * (2 * dv - 1) < du * (2 * k) := by
        ring_nf
        ring_nf at hhi
        linarith
      have h5 : 2 * k ≤ 2 * dv + 1 := le_of_mul_le_mul_left hup h0
      have h6 : 2 * dv - 1 < 2 * k := lt_of_mul_lt_mul_left hdown hdu
      omega
  subst hkdveq
  exact ⟨pts, heq, hmem⟩

/-- The last element of the Bresenham loop's point list is always the point
built from the current position. -/
lemma bresLoop_getLast (su sv du dv : ℤ) (mk : ℤ → ℤ → Point) (n : ℕ)
    (st : ℤ × ℤ × ℤ × List Point)
    (h : st.2.2.2.getLast? = some (mk st.1 st.2.1)) :
    (bresLoop su sv du dv mk n st).2.2.2.getLast? =
      some (mk (bresLoop su sv du dv mk n st).1
        (bresLoop su sv du dv mk n st).2.1) := by
  induction n with
  | zero => exact h
  | succ n ih =>
    rw [bresLoop]
    generalize bresLoop su sv du dv mk n st = st' at ih
    unfold bresStep
    dsimp only
    split <;> split
    · exact List.getLast?_concat _
    · rename_i hcond
      rw [not_not] at hcond
      exact hcond
    · exact List.getLast?_concat _
    · rename_i hcond
      rw [not_not] at hcond
      exact hcond

/-- The head of the Bresenham loop's point list never changes. -/
lemma bresLoop_head (su sv du dv : ℤ) (mk : ℤ → ℤ → Point) (n : ℕ)
    (st : ℤ × ℤ × ℤ × List Point) (p0 : Point)
    (h : st.2.2.2.head? = some p0) :
    (bresLoop su sv du dv mk n st).2.2.2.head? = some p0 := by
  induction n with
  | zero => exact h
  | succ n ih =>
    rw [bresLoop]
    generalize bresLoop su sv du dv mk n st = st' at ih
    unfold bresStep
    dsimp only
    split <;> split
    · rw [List.head?_append, ih]
      rfl
    · exact ih
    · rw [List.head?_append, ih]
      rfl
    · exact ih

/-- Combined specification of one Bresenham branch: the produced list is
non-empty, starts at the seed point, ends at the final position, and every
element comes from an intermediate position. -/
lemma bres_branch_spec (su sv du dv u1 v1 : ℤ) (mk : ℤ → ℤ → Point)
    (hdv : 0 ≤ dv) (hdudv : dv ≤ du) :
    (bresLoop su sv du dv mk du.toNat
        (u1, v1, 2 * dv - du, [mk u1 v1])).2.2.2 ≠ [] ∧
    (bresLoop su sv du dv mk du.toNat
        (u1, v1, 2 * dv - du, [mk u1 v1])).2.2.2.head? = some (mk u1 v1) ∧
    (bresLoop su sv du dv mk du.toNat
        (u1, v1, 2 * dv - du, [mk u1 v1])).2.2.2.getLast? =
      some (mk (u1 + du * su) (v1 + dv * sv)) ∧
    (∀ p ∈ (bresLoop su sv du dv mk du.toNat
        (u1, v1, 2 * dv - du, [mk u1 v1])).2.2.2,
      ∃ j m : ℤ, 0 ≤ j ∧ j ≤ du ∧ 0 ≤ m ∧ m ≤ dv ∧
        p = mk (u1 + j * su) (v1 + m * sv)) := by
  obtain ⟨pts, heq, hmem⟩ := bresLoop_final su sv du dv u1 v1 mk hdv hdudv
  have hhead := bresLoop_head su sv du dv mk du.toNat
    (u1, v1, 2 * dv - du, [mk u1 v1]) (mk u1 v1) (by simp)
  have hlast := bresLoop_getLast su sv du dv mk du.toNat
    (u1, v1, 2 * dv - du, [mk u1 v1]) (by simp)
  refine ⟨?_, hhead, ?_, ?_⟩
  · intro hnil
    rw [hnil] at hhead
    simp at hhead
  · rw [hlast, heq]
  · rw [heq]
    exact hmem

/-- Stepping j times from a toward b, 0 ≤ j ≤ |b - a|, stays between a and
b. -/
lemma coord_in_box (a b j : ℤ) (hj0 : 0 ≤ j) (hj : j ≤ |b - a|) :
    min a b ≤ a + j * (if a ≤ b then (1 : ℤ) else -1) ∧
    a + j * (if a ≤ b then (1 : ℤ) else -1) ≤ max a b := by
  rcases le_or_lt a b with h | h
  · rw [if_pos h, abs_of_nonneg (by omega : (0 : ℤ) ≤ b - a)] at *
    rw [min_eq_left h, max_eq_right h]
    omega
  · rw [if_neg (by omega), abs_of_neg (by omega : b - a < 0)] at *
    rw [min_eq_right (le_of_lt h), max_eq_left (le_of_lt h)]
    omega

/-- Stepping j times from a toward b for the full distance |b - a| lands on
b exactly. -/
lemma coord_endpoint (a b : ℤ) :
    a + |b - a| * (if a ≤ b then (1 : ℤ) else -1) = b := by
  rcases le_or_lt a b with h | h
  · rw [if_pos h, abs_of_nonneg (by omega : (0 : ℤ) ≤ b - a)]
    ring
  · rw [if_neg (by omega), abs_of_neg (by omega : b - a < 0)]
    ring

/-- C2: the Bresenham line result is non-empty, its first element is
(x1, y1) and its last element is (x2, y2). -/
theorem bresenham_endpoints (x1 y1 x2 y2 : ℤ) :
    bresenhamLinePoints x1 y1 x2 y2 ≠ [] ∧
    (bresenhamLinePoints x1 y1 x2 y2).head? = some (x1, y1) ∧
    (bresenhamLinePoints x1 y1 x2 y2).getLast? = some (x2, y2) := by
  unfold bresenhamLinePoints
  dsimp only
  split
  · rename_i hcase
    obtain ⟨hne, hhead, hlast, _⟩ := bres_branch_spec
      (if x1 ≤ x2 then (1 : ℤ) else -1) (if y1 ≤ y2 then (1 : ℤ) else -1)
      |x2 - x1| |y2 - y1| x1 y1 (fun u v => (u, v)) (abs_nonneg _) hcase
    refine ⟨hne, hhead, ?_⟩
    rw [hlast]
    rw [coord_endpoint x1 x2, coord_endpoint y1 y2]
  · rename_i hcase
    obtain ⟨hne, hhead, hlast, _⟩ := bres_branch_spec
      (if y1 ≤ y2 then (1 : ℤ) else -1) (if x1 ≤ x2 then (1 : ℤ) else -1)
      |y2 - y1| |x2 - x1| y1 x1 (fun u v => (v, u)) (abs_nonneg _)
      (le_of_lt (not_le.mp hcase))
    refine ⟨hne, hhead, ?_⟩
    rw [hlast]
    rw [coord_endpoint x1 x2, coord_endpoint y1 y2]

/-- C10: every point of the Bresenham line result lies in the axis-aligned
bounding box of the two endpoints. -/
theorem bresenham_bounding_box (x1 y1 x2 y2 : ℤ) :
    ∀ p ∈ bresenhamLinePoints x1 y1 x2 y2,
      min x1 x2 ≤ p.1 ∧ p.1 ≤ max x1 x2 ∧
      min y1 y2 ≤ p.2 ∧ p.2 ≤ max y1 y2 := by
  unfold bresenhamLinePoints
  dsimp only
  split
  · rename_i hcase
    obtain ⟨_, _, _, hmem⟩ := bres_branch_spec
      (if x1 ≤ x2 then (1 : ℤ) else -1) (if y1 ≤ y2 then (1 : ℤ) else -1)
      |x2 - x1| |y2 - y1| x1 y1 (fun u v => (u, v)) (abs_nonneg _) hcase
    intro p hp
    obtain ⟨j, m, hj0, hj, hm0, hm, hpeq⟩ := hmem p hp
    obtain ⟨hx1, hx2⟩ := coord_in_box x1 x2 j hj0 hj
    obtain ⟨hy1, hy2⟩ := coord_in_box y1 y2 m hm0 hm
    rw [hpeq]
    exact ⟨hx1, hx2, hy1, hy2⟩
  · rename_i hcase
    obtain ⟨_, _, _, hmem⟩ := bres_branch_spec
      (if y1 ≤ y2 then (1 : ℤ) else -1) (if x1 ≤ x2 then (1 : ℤ) else -1)
      |y2 - y1| |x2 - x1| y1 x1 (fun u v => (v, u)) (abs_nonneg _)
      (le_of_lt (not_le.mp hcase))
    intro p hp
    obtain ⟨j, m, hj0, hj, hm0, hm, hpeq⟩ := hmem p hp
    obtain ⟨hy1, hy2⟩ := coord_in_box y1 y2 j hj0 hj
    obtain ⟨hx1, hx2⟩ := coord_in_box x1 x2 m hm0 hm
    rw [hpeq]
    exact ⟨hx1, hx2, hy1, hy2⟩

set_option maxHeartbeats 1600000 in
/-- The eight-point symmetry list is closed under reflection in the vertical
and horizontal axes through the center. -/
lemma circle_symmetry_points_closed (xc yc x y : ℤ) (p : Point)
    (hp : p ∈ circle_symmetry_points xc yc x y) :
    (2 * xc - p.1, p.2) ∈ circle_symmetry_points xc yc x y ∧
    (p.1, 2 * yc - p.2) ∈ circle_symmetry_points xc yc x y := by
  obtain ⟨a, b⟩ := p
  simp only [circle_symmetry_points, List.mem_cons, List.not_mem_nil,
    or_false, Prod.mk.injEq] at hp ⊢
  rcases hp with h | h | h | h | h | h | h | h <;>
    exact ⟨by omega, by omega⟩

/-- Unfolding of circleLoop when the guard holds and the decision variable is
positive. -/
lemma circleLoop_rec_pos (xc yc x y d : ℤ) (seen points : List Point)
    (hxy : x ≤ y) (hd : 0 < d) :
    circleLoop xc yc x y d seen points =
      circleLoop xc yc (x + 1) (y - 1) (d + 4 * ((x + 1) - (y - 1)) + 10)
        (circleInner (circle_symmetry_points xc yc x y) seen points).1
        (circleInner (circle_symmetry_points xc yc x y) seen points).2 := by
  rw [circleLoop]
  rw [if_pos hxy]
  dsimp only
  rw [if_pos hd]

/-- Unfolding of circleLoop when the guard holds and the decision variable is
non-positive. -/
lemma circleLoop_rec_nonpos (xc yc x y d : ℤ) (seen points : List Point)
    (hxy : x ≤ y) (hd : ¬0 < d) :
    circleLoop xc yc x y d seen points =
      circleLoop xc yc (x + 1) y (d + 4 * (x + 1) + 6)
        (circleInner (circle_symmetry_points xc yc x y) seen points).1
        (circleInner (circle_symmetry_points xc yc x y) seen points).2 := by
  rw [circleLoop]
  rw [if_pos hxy]
  dsimp only
  rw [if_neg hd]

/-- Unfolding of circleLoop when the guard fails. -/
lemma circleLoop_exit (xc yc x y d : ℤ) (seen points : List Point)
    (hxy : ¬x ≤ y) :
    circleLoop xc yc x y d seen points = points := by
  rw [circleLoop]
  rw [if_neg hxy]

/-- Behaviour of the inner dedup loop: afterwards the point list holds
exactly the old points plus the candidates, the seen set likewise, point
list and seen set hold the same elements, and no duplicate is introduced. -/
lemma circleInner_spec : ∀ (l seen points : List Point),
    (∀ p : Point, p ∈ points ↔ p ∈ seen) →
    ((∀ q : Point, q ∈ (circleInner l seen points).2 ↔ q ∈ points ∨ q ∈ l) ∧
     (∀ q : Point, q ∈ (circleInner l seen points).1 ↔ q ∈ seen ∨ q ∈ l) ∧
     (points.Nodup → (circleInner l seen points).2.Nodup))
  | [], seen, points, hmem => by
      simp [circleInner]
  | p :: rest, seen, points, hmem => by
      rw [circleInner]
      split
      · rename_i hseen
        obtain ⟨hA, hB, hC⟩ := circleInner_spec rest seen points hmem
        refine ⟨?_, ?_, hC⟩
        · intro q
          rw [hA q]
          simp only [List.mem_cons]
          constructor
          · rintro (h | h)
            · exact Or.inl h
            · exact Or.inr (Or.inr h)
          · rintro (h | h | h)
            · exact Or.inl h
            · exact Or.inl ((hmem q).mpr (h ▸ hseen))
            · exact Or.inr h
        · intro q
          rw [hB q]
          simp only [List.mem_cons]
          constructor
          · rintro (h | h)
            · exact Or.inl h
            · exact Or.inr (Or.inr h)
          · rintro (h | h | h)
            · exact Or.inl h
            · exact Or.inl (h ▸ hseen)
            · exact Or.inr h
      · rename_i hseen
        have hp : p ∉ points := fun hin => hseen ((hmem p).mp hin)
        have hmem' : ∀ q : Point, q ∈ points ++ [p] ↔ q ∈ p :: seen := by
          intro q
          simp only [List.mem_append, List.mem_singleton, List.mem_cons,
            hmem q]
          tauto
        obtain ⟨hA, hB, hC⟩ :=
          circleInner_spec rest (p :: seen) (points ++ [p]) hmem'
        refine ⟨?_, ?_, ?_⟩
        · intro q
          rw [hA q]
          simp only [List.mem_append, List.mem_singleton, List.mem_cons]
          tauto
        · intro q
          rw [hB q]
          simp only [List.mem_cons]
          tauto
        · intro hnd
          apply hC
          rw [List.nodup_append]
          exact ⟨hnd, List.nodup_singleton p, by simpa using hp⟩

/-- Invariant of the outer circle loop: starting from a point list agreeing
with the seen set, the final list keeps every old point, stays
duplicate-free, and preserves closure under both axis reflections through
the center. -/
lemma circleLoop_spec (xc yc : ℤ) :
    ∀ (x y d : ℤ) (seen points : List Point),
      (∀ p : Point, p ∈ points ↔ p ∈ seen) →
      ((∀ q ∈ points, q ∈ circleLoop xc yc x y d seen points) ∧
       (points.Nodup → (circleLoop xc yc x y d seen points).Nodup) ∧
       ((∀ p ∈ points, (2 * xc - p.1, p.2) ∈ points ∧
           (p.1, 2 * yc - p.2) ∈ points) →
         ∀ p ∈ circleLoop xc yc x y d seen points,
           (2 * xc - p.1, p.2) ∈ circleLoop xc yc x y d seen points ∧
           (p.1, 2 * yc - p.2) ∈ circleLoop xc yc x y d seen points)) := by
  intro x y d seen points
  induction x, y, d, seen, points using circleLoop.induct xc yc with
  | case1 x y d seen points hxy sp hd ih =>
    intro hmem
    obtain ⟨hA, hB, hC⟩ :=
      circleInner_spec (circle_symmetry_points xc yc x y) seen points hmem
    have hmem' : ∀ p : Point,
        p ∈ (circleInner (circle_symmetry_points xc yc x y) seen points).2 ↔
        p ∈ (circleInner (circle_symmetry_points xc yc x y) seen points).1 := by
      intro q
      rw [hA q, hB q, hmem q]
    have ih' := ih hmem'
    rw [circleLoop_rec_pos xc yc x y d seen points hxy hd]
    refine ⟨?_, ?_, ?_⟩
    · intro q hq
      exact ih'.1 q ((hA q).mpr (Or.inl hq))
    · intro hnd
      exact ih'.2.1 (hC hnd)
    · intro hcl p hp
      have hcl' : ∀ p ∈ (circleInner (circle_symmetry_points xc yc x y)
            seen points).2,
          (2 * xc - p.1, p.2) ∈ (circleInner
            (circle_symmetry_points xc yc x y) seen points).2 ∧
          (p.1, 2 * yc - p.2) ∈ (circleInner
            (circle_symmetry_points xc yc x y) seen points).2 := by
        intro q hq
        rcases (hA q).mp hq with h | h
        · obtain ⟨h1, h2⟩ := hcl q h
          exact ⟨(hA _).mpr (Or.inl h1), (hA _).mpr (Or.inl h2)⟩
        · obtain ⟨h1, h2⟩ := circle_symmetry_points_closed xc yc x y q h
          exact ⟨(hA _).mpr (Or.inr h1), (hA _).mpr (Or.inr h2)⟩
      exact ih'.2.2 hcl' p hp
  | case2 x y d seen points hxy sp hd ih =>
    intro hmem
    obtain ⟨hA, hB, hC⟩ :=
      circleInner_spec (circle_symmetry_points xc yc x y) seen points hmem
    have hmem' : ∀ p : Point,
        p ∈ (circleInner (circle_symmetry_points xc yc x y) seen points).2 ↔
        p ∈ (circleInner (circle_symmetry_points xc yc x y) seen points).1 := by
      intro q
      rw [hA q, hB q, hmem q]
    have ih' := ih hmem'
    rw [circleLoop_rec_nonpos xc yc x y d seen points hxy hd]
    refine ⟨?_, ?_, ?_⟩
    · intro q hq
      exact ih'.1 q ((hA q).mpr (Or.inl hq))
    · intro hnd
      exact ih'.2.1 (hC hnd)
    · intro hcl p hp
      have hcl' : ∀ p ∈ (circleInner (circle_symmetry_points xc yc x y)
            seen points).2,
          (2 * xc - p.1, p.2) ∈ (circleInner
            (circle_symmetry_points xc yc x y) seen points).2 ∧
          (p.1, 2 * yc - p.2) ∈ (circleInner
            (circle_symmetry_points xc yc x y) seen points).2 := by
        intro q hq
        rcases (hA q).mp hq with h | h
        · obtain ⟨h1, h2⟩ := hcl q h
          exact ⟨(hA _).mpr (Or.inl h1), (hA _).mpr (Or.inl h2)⟩
        · obtain ⟨h1, h2⟩ := circle_symmetry_points_closed xc yc x y q h
          exact ⟨(hA _).mpr (Or.inr h1), (hA _).mpr (Or.inr h2)⟩
      exact ih'.2.2 hcl' p hp
  | case3 x y d seen points hxy =>
    intro hmem
    rw [circleLoop_exit xc yc x y d seen points hxy]
    exact ⟨fun q hq => hq, fun hnd => hnd, fun hcl p hp => hcl p hp⟩

/-- C1: the circle rasterizer fails with the invalid-argument error exactly
when radius < 0, returning the error immediately with no partial result; for
every radius ≥ 0 it returns normally and the result is non-empty. -/
theorem circle_radius_validation (xc yc radius : ℤ) :
    (radius < 0 → bresenhamCirclePoints xc yc radius =
      .error "Radius must be non-negative.") ∧
    (0 ≤ radius → ∃ l : List Point,
      bresenhamCirclePoints xc yc radius = .ok l ∧ l ≠ []) := by
  constructor
  · intro h
    unfold bresenhamCirclePoints
    rw [if_pos h]
  · intro h
    unfold bresenhamCirclePoints
    rw [if_neg (not_lt.mpr h)]
    refine ⟨_, rfl, ?_⟩
    obtain ⟨hA, hB, hC⟩ :=
      circleInner_spec (circle_symmetry_points xc yc 0 radius) [] []
        (by simp)
    have hmem' : ∀ p : Point,
        p ∈ (circleInner (circle_symmetry_points xc yc 0 radius) [] []).2 ↔
        p ∈ (circleInner (circle_symmetry_points xc yc 0 radius) [] []).1 := by
      intro q
      rw [hA q, hB q]
    have hin : (xc + 0, yc + radius) ∈
        (circleInner (circle_symmetry_points xc yc 0 radius) [] []).2 :=
      (hA _).mpr (Or.inr (by simp [circle_symmetry_points]))
    by_cases hd : 0 < 3 - 2 * radius
    · rw [circleLoop_rec_pos xc yc 0 radius _ [] [] h hd]
      exact List.ne_nil_of_mem
        ((circleLoop_spec xc yc _ _ _ _ _ hmem').1 _ hin)
    · rw [circleLoop_rec_nonpos xc yc 0 radius _ [] [] h hd]
      exact List.ne_nil_of_mem
        ((circleLoop_spec xc yc _ _ _ _ _ hmem').1 _ hin)

/-- C4: for radius ≥ 0 the circle result contains no duplicate points. -/
theorem circle_no_duplicates (xc yc radius : ℤ) (h : 0 ≤ radius)
    (l : List Point) (hl : bresenhamCirclePoints xc yc radius = .ok l) :
    l.Nodup := by
  unfold bresenhamCirclePoints at hl
  rw [if_neg (not_lt.mpr h)] at hl
  have hl' := Except.ok.inj hl
  rw [← hl']
  exact (circleLoop_spec xc yc 0 radius (3 - 2 * radius) [] []
    (by simp)).2.1 List.nodup_nil

/-- C5: for radius > 0 the circle result is closed under reflection across
the vertical axis, the horizontal axis, and their composition, through the
center. -/
theorem circle_symmetry (xc yc radius : ℤ) (h : 0 < radius)
    (l : List Point) (hl : bresenhamCirclePoints xc yc radius = .ok l) :
    ∀ p ∈ l, (2 * xc - p.1, p.2) ∈ l ∧ (p.1, 2 * yc - p.2) ∈ l ∧
      (2 * xc - p.1, 2 * yc - p.2) ∈ l := by
  unfold bresenhamCirclePoints at hl
  rw [if_neg (not_lt.mpr (le_of_lt h))] at hl
  have hl' := Except.ok.inj hl
  rw [← hl']
  have hcl := (circleLoop_spec xc yc 0 radius (3 - 2 * radius) [] []
    (by simp)).2.2 (by simp)
  intro p hp
  obtain ⟨h1, h2⟩ := hcl p hp
  obtain ⟨h3, h4⟩ := hcl (2 * xc - p.1, p.2) h1
  exact ⟨h1, h2, h4⟩

/-- C8: a zero-radius circle request returns exactly the center point. -/
theorem circle_radius_zero (xc yc : ℤ) :
    bresenhamCirclePoints xc yc 0 = .ok [(xc, yc)] := by
  unfold bresenhamCirclePoints
  rw [if_neg (by norm_num)]
  rw [circleLoop_rec_pos xc yc 0 0 (3 - 2 * 0) [] [] le_rfl (by norm_num)]
  rw [circleLoop_exit xc yc (0 + 1) (0 - 1) _ _ _ (by norm_num)]
  simp [circle_symmetry_points, circleInner]

/-- Concrete evaluations of pyRound used on the tie request (0, 0, 2, 1),
where every intermediate float of the source is an exactly representable
dyadic rational. -/
lemma pyRound_evals :
    pyRound 0 = 0 ∧ pyRound (1 / 2) = 0 ∧ pyRound 1 = 1 ∧ pyRound 2 = 2 := by
  refine ⟨?_, ?_, ?_, ?_⟩ <;> norm_num [pyRound]

/-- Evaluation of the Step rasterizer on the tie request. -/
lemma stepLinePoints_tie_eval :
    stepLinePoints 0 0 2 1 = [(0, 0), (1, 0), (2, 1)] := by
  obtain ⟨h0, hh, h1, h2⟩ := pyRound_evals
  norm_num [stepLinePoints, dedupAppend, List.range_succ, Int.toNat_ofNat,
    show Int.toNat 2 = 2 from rfl, show List.range 2 = [0, 1] from rfl,
    h0, hh, h1, h2]
  decide

/-- Evaluation of the DDA rasterizer on the tie request. -/
lemma ddaLinePoints_tie_eval :
    ddaLinePoints 0 0 2 1 = [(0, 0), (1, 0), (2, 1)] := by
  obtain ⟨h0, hh, h1, h2⟩ := pyRound_evals
  norm_num [ddaLinePoints, dedupAppend, List.range_succ, Int.toNat_ofNat,
    show Int.toNat 2 = 2 from rfl, show List.range 2 = [0, 1] from rfl,
    h0, hh, h1, h2]
  decide

/-- C6 counterexample: on the request (0, 0, 2, 1) the exact dependent
coordinate at x = 1 is 1/2, an integer plus one half; rounding away from zero
would emit (1, 1), but both Step and DDA emit (1, 0): Python's round ties to
even, so the half rounds toward zero here. -/
theorem tie_rounding_counterexample :
    stepLinePoints 0 0 2 1 = [(0, 0), (1, 0), (2, 1)] ∧
    ddaLinePoints 0 0 2 1 = [(0, 0), (1, 0), (2, 1)] ∧
    pyRound (1 / 2 : ℚ) = 0 :=
  ⟨stepLinePoints_tie_eval, ddaLinePoints_tie_eval, pyRound_evals.2.1⟩

/-- C6 amended: the dependent coordinate in Step and DDA is rounded to the
nearest integer with ties to even (Python's round), so at a half-integer the
emitted value is the even neighbour, not the one farther from zero; on
(0, 0, 2, 1) both emit (1, 0). -/
theorem tie_rounding_amended :
    (∀ n : ℤ, pyRound ((n : ℚ) + 1 / 2) = if n % 2 = 0 then n else n + 1) ∧
    stepLinePoints 0 0 2 1 = [(0, 0), (1, 0), (2, 1)] ∧
    ddaLinePoints 0 0 2 1 = [(0, 0), (1, 0), (2, 1)] := by
  refine ⟨?_, stepLinePoints_tie_eval, ddaLinePoints_tie_eval⟩
  intro n
  have hfl : ⌊(n : ℚ) + 1 / 2⌋ = n := by
    rw [add_comm, Int.floor_add_int]
    norm_num
  simp only [pyRound, hfl]
  have h2 : (n : ℚ) + 1 / 2 - (n : ℚ) = 1 / 2 := by ring
  rw [h2]
  norm_num

/-- C9: the benchmark workload is a deterministic function of the generator
stream (hence of the seed) and the sample counts, and its entries are drawn
with the bounds of benchmark.py: line coordinates in [-60, 60], circle
centers in [-30, 30], radii in [1, 30]. -/
theorem benchmark_workload_deterministic (dr dr2 : ℕ → ℤ → ℤ → ℤ)
    (lineTests circleTests : ℕ)
    (hsame : ∀ k lo hi, dr k lo hi = dr2 k lo hi)
    (hrange : ∀ k lo hi, lo ≤ hi → lo ≤ dr k lo hi ∧ dr k lo hi ≤ hi) :
    runBenchmarksWorkload dr lineTests circleTests =
      runBenchmarksWorkload dr2 lineTests circleTests ∧
    (∀ t ∈ (runBenchmarksWorkload dr lineTests circleTests).1,
      -60 ≤ t.1 ∧ t.1 ≤ 60 ∧ -60 ≤ t.2.1 ∧ t.2.1 ≤ 60 ∧
      -60 ≤ t.2.2.1 ∧ t.2.2.1 ≤ 60 ∧ -60 ≤ t.2.2.2 ∧ t.2.2.2 ≤ 60) ∧
    (∀ t ∈ (runBenchmarksWorkload dr lineTests circleTests).2,
      -30 ≤ t.1 ∧ t.1 ≤ 30 ∧ -30 ≤ t.2.1 ∧ t.2.1 ≤ 30 ∧
      1 ≤ t.2.2 ∧ t.2.2 ≤ 30) := by
  refine ⟨?_, ?_, ?_⟩
  · unfold runBenchmarksWorkload lineDataset circleDataset
    simp only [hsame]
  · intro t ht
    unfold runBenchmarksWorkload lineDataset at ht
    simp only [List.mem_map] at ht
    obtain ⟨i, _, rfl⟩ := ht
    obtain ⟨a1, a2⟩ := hrange (4 * i) (-60) 60 (by norm_num)
    obtain ⟨b1, b2⟩ := hrange (4 * i + 1) (-60) 60 (by norm_num)
    obtain ⟨c1, c2⟩ := hrange (4 * i + 2) (-60) 60 (by norm_num)
    obtain ⟨d1, d2⟩ := hrange (4 * i + 3) (-60) 60 (by norm_num)
    exact ⟨a1, a2, b1, b2, c1, c2, d1, d2⟩
  · intro t ht
    unfold runBenchmarksWorkload circleDataset at ht
    simp only [List.mem_map] at ht
    obtain ⟨i, _, rfl⟩ := ht
    obtain ⟨a1, a2⟩ := hrange (4 * lineTests + 3 * i) (-30) 30 (by norm_num)
    obtain ⟨b1, b2⟩ := hrange (4 * lineTests + 3 * i + 1) (-30) 30
      (by norm_num)
    obtain ⟨c1, c2⟩ := hrange (4 * lineTests + 3 * i + 2) 1 30 (by norm_num)
    exact ⟨a1, a2, b1, b2, c1, c2⟩

/-- Evaluation of the circle rasterizer on the unit circle at the origin. -/
lemma circle_unit_eval :
    bresenhamCirclePoints 0 0 1 = .ok [(0, 1), (0, -1), (1, 0), (-1, 0)] := by
  unfold bresenhamCirclePoints
  rw [if_neg (by norm_num)]
  rw [circleLoop_rec_pos 0 0 0 1 (3 - 2 * 1) [] [] (by norm_num)
    (by norm_num)]
  rw [circleLoop_exit 0 0 (0 + 1) (1 - 1) _ _ _ (by norm_num)]
  simp only [Except.ok.injEq]
  decide

/-- Witness for the radius validation claim at radius -1 and radius 2. -/
theorem circle_radius_validation_witness :
    bresenhamCirclePoints 0 0 (-1) = .error "Radius must be non-negative." ∧
    ∃ l : List Point, bresenhamCirclePoints 0 0 2 = .ok l ∧ l ≠ [] :=
  ⟨(circle_radius_validation 0 0 (-1)).1 (by norm_num),
   (circle_radius_validation 0 0 2).2 (by norm_num)⟩

/-- Witness for the circle uniqueness claim at the unit circle. -/
theorem circle_no_duplicates_witness :
    bresenhamCirclePoints 0 0 1 = .ok [(0, 1), (0, -1), (1, 0), (-1, 0)] ∧
    List.Nodup [((0 : ℤ), (1 : ℤ)), (0, -1), (1, 0), (-1, 0)] :=
  ⟨circle_unit_eval,
   circle_no_duplicates 0 0 1 (by norm_num) _ circle_unit_eval⟩

/-- Witness for the circle symmetry claim at the unit circle. -/
theorem circle_symmetry_witness :
    bresenhamCirclePoints 0 0 1 = .ok [(0, 1), (0, -1), (1, 0), (-1, 0)] ∧
    ∀ p ∈ [((0 : ℤ), (1 : ℤ)), (0, -1), (1, 0), (-1, 0)],
      (2 * 0 - p.1, p.2) ∈ [((0 : ℤ), (1 : ℤ)), (0, -1), (1, 0), (-1, 0)] ∧
      (p.1, 2 * 0 - p.2) ∈ [((0 : ℤ), (1 : ℤ)), (0, -1), (1, 0), (-1, 0)] ∧
      (2 * 0 - p.1, 2 * 0 - p.2) ∈
        [((0 : ℤ), (1 : ℤ)), (0, -1), (1, 0), (-1, 0)] :=
  ⟨circle_unit_eval, circle_symmetry 0 0 1 (by norm_num) _ circle_unit_eval⟩

/-- Witness for the bounding-box claim on the request (0, 0, 2, 1). -/
theorem bresenham_bounding_box_witness :
    ((1 : ℤ), (1 : ℤ)) ∈ bresenhamLinePoints 0 0 2 1 ∧
    (min (0 : ℤ) 2 ≤ 1 ∧ (1 : ℤ) ≤ max 0 2 ∧
     min (0 : ℤ) 1 ≤ 1 ∧ (1 : ℤ) ≤ max 0 1) := by
  have hmem : ((1 : ℤ), (1 : ℤ)) ∈ bresenhamLinePoints 0 0 2 1 := by decide
  exact ⟨hmem, bresenham_bounding_box 0 0 2 1 (1, 1) hmem⟩

/-- Witness for the benchmark workload claim with a one-draw generator and
one sample of each kind. -/
theorem benchmark_workload_deterministic_witness :
    runBenchmarksWorkload (fun _ lo _ => lo) 1 1 =
      runBenchmarksWorkload (fun _ lo _ => lo) 1 1 ∧
    (∀ t ∈ (runBenchmarksWorkload (fun _ lo _ => lo) 1 1).1,
      -60 ≤ t.1 ∧ t.1 ≤ 60 ∧ -60 ≤ t.2.1 ∧ t.2.1 ≤ 60 ∧
      -60 ≤ t.2.2.1 ∧ t.2.2.1 ≤ 60 ∧ -60 ≤ t.2.2.2 ∧ t.2.2.2 ≤ 60) ∧
    (∀ t ∈ (runBenchmarksWorkload (fun _ lo _ => lo) 1 1).2,
      -30 ≤ t.1 ∧ t.1 ≤ 30 ∧ -30 ≤ t.2.1 ∧ t.2.1 ≤ 30 ∧
      1 ≤ t.2.2 ∧ t.2.2 ≤ 30) :=
  benchmark_workload_deterministic (fun _ lo _ => lo) (fun _ lo _ => lo) 1 1
    (fun _ _ _ => rfl) (fun _ lo _ h => ⟨le_refl lo, h⟩)
